import Mathlib

/-!
Verification of the day5 interval remapper (AdventOfCode2023, src/day5/main.py).

The embedding models:
* a mapping rule, the triple (destination_start, source_start, length);
* a category, holding an identifier and an ordered rule list (category_map);
* Category.convert_initial_seed, the scalar piecewise translation;
* Category.convert_seed_range, the work-list drain loop that splits and
  translates half-open integer ranges.  The Python loop pops from the end of
  the caller's list and appends residual sub-ranges back; we represent the
  stack with its top at the head, so the caller's list l becomes l.reverse.
  The while loop is rendered as a fuel-indexed recursion; a measure that
  strictly decreases at every iteration (proved below) shows the natural
  fuel bound ranges * (2 * rules + 1) always suffices.
* the Gardener pipeline (convert_to_location_seed_ranges,
  find_lowest_location_from_seed_ranges) including the post-state of the
  mutated seed_ranges list, and the seed_ranges construction of
  parse_almanac.
-/

namespace Day5

/-- A mapping rule, the source tuple (destination_start, source_start, length). -/
structure MapRule where
  destination_start : Int
  source_start : Int
  length : Int
deriving DecidableEq, Repr

/-- A category: identifier string and ordered rule list, as parsed from one block. -/
structure Category where
  category_id : String
  category_map : List MapRule
deriving DecidableEq, Repr

/-- Scan of the category map performed by convert_initial_seed: the first rule
whose source interval contains the number wins, otherwise identity. -/
def applyFirstRule : List MapRule → Int → Int
  | [], source_number => source_number
  | m :: rest, source_number =>
      if m.source_start ≤ source_number ∧ source_number < m.source_start + m.length then
        m.destination_start + (source_number - m.source_start)
      else
        applyFirstRule rest source_number

/-- Category.convert_initial_seed from the source: first containing rule, else identity. -/
def Category.convert_initial_seed (c : Category) (source_number : Int) : Int :=
  applyFirstRule c.category_map source_number

/-- The for-loop scan inside convert_seed_range: first rule whose source
interval overlaps the popped range (overlap test max start src < min end src+len). -/
def findFirstOverlap : List MapRule → Int × Int → Option MapRule
  | [], _ => none
  | m :: rest, r =>
      if max r.1 m.source_start < min r.2 (m.source_start + m.length) then some m
      else findFirstOverlap rest r

/-- The residual sub-ranges pushed back onto the work-list when a rule overlaps
a popped range: the suffix (overlap_end, end) is pushed last, hence sits on top. -/
def residuals (m : MapRule) (r : Int × Int) : List (Int × Int) :=
  (if min r.2 (m.source_start + m.length) < r.2 then
      [(min r.2 (m.source_start + m.length), r.2)] else []) ++
  (if r.1 < max r.1 m.source_start then [(r.1, max r.1 m.source_start)] else [])

/-- The translated overlap appended to converted_ranges when a rule matches. -/
def translated (m : MapRule) (r : Int × Int) : Int × Int :=
  (max r.1 m.source_start - m.source_start + m.destination_start,
   min r.2 (m.source_start + m.length) - m.source_start + m.destination_start)

/-- Counts 1 when the integer b lies strictly inside (lo, hi). -/
def bInd (b lo hi : Int) : Nat := if lo < b ∧ b < hi then 1 else 0

/-- How many of the two boundary points of a rule lie strictly inside a range. -/
def bcount (m : MapRule) (r : Int × Int) : Nat :=
  bInd m.source_start r.1 r.2 + bInd (m.source_start + m.length) r.1 r.2

/-- Work-list weight of one range: 1 plus the number of rule boundaries
strictly inside it.  Each loop iteration strictly decreases the total weight. -/
def weight (rules : List MapRule) (r : Int × Int) : Nat :=
  1 + (rules.map (fun m => bcount m r)).sum

/-- Total weight of a work-list; an upper bound on the remaining iterations. -/
def measureWL (rules : List MapRule) (l : List (Int × Int)) : Nat :=
  (l.map (weight rules)).sum

/-- The while-loop of convert_seed_range, fuel-indexed.  State is the pending
work-list (top of the Python stack at the head) and converted_ranges.  Returns
the final work-list (always empty: the loop exits only when the list is
drained) together with converted_ranges; none only when fuel runs out. -/
def convertLoopF (rules : List MapRule) :
    Nat → List (Int × Int) → List (Int × Int) →
    Option (List (Int × Int) × List (Int × Int))
  | _, [], converted_ranges => some ([], converted_ranges)
  | 0, _ :: _, _ => none
  | fuel + 1, r :: rest, converted_ranges =>
      match findFirstOverlap rules r with
      | none => convertLoopF rules fuel rest (converted_ranges ++ [r])
      | some m =>
          convertLoopF rules fuel (residuals m r ++ rest)
            (converted_ranges ++ [translated m r])

/-- Category.convert_seed_range: run the drain loop on the reversed input (the
Python pop takes the last element first) with the always-sufficient fuel. -/
def Category.convert_seed_range (c : Category) (seed_ranges_pair : List (Int × Int)) :
    List (Int × Int) :=
  match convertLoopF c.category_map (measureWL c.category_map seed_ranges_pair.reverse)
      seed_ranges_pair.reverse [] with
  | some p => p.2
  | none => []

/-- Final content of the list object passed to convert_seed_range: the loop
pops until the list is empty, so the caller's list ends up drained. -/
def Category.convert_seed_range_post (c : Category) (seed_ranges_pair : List (Int × Int)) :
    List (Int × Int) :=
  match convertLoopF c.category_map (measureWL c.category_map seed_ranges_pair.reverse)
      seed_ranges_pair.reverse [] with
  | some p => p.1.reverse
  | none => []

/-- The gardener: initial seeds, derived seed ranges, categories in block order. -/
structure Gardener where
  initial_seeds : List Int
  seed_ranges : List (Int × Int)
  categories : List Category
deriving DecidableEq, Repr

/-- Gardener.convert_to_location_seed_ranges: thread the ranges through every
category in order. -/
def Gardener.convert_to_location_seed_ranges (g : Gardener)
    (seed_ranges_pair : List (Int × Int)) : List (Int × Int) :=
  g.categories.foldl (fun pair c => c.convert_seed_range pair) seed_ranges_pair

/-- Python min over pairs: lexicographic order, first minimal element kept. -/
def pyMin : List (Int × Int) → Option (Int × Int)
  | [] => none
  | x :: xs =>
      some (xs.foldl
        (fun cur y => if y.1 < cur.1 ∨ (y.1 = cur.1 ∧ y.2 < cur.2) then y else cur) x)

/-- Gardener.find_lowest_location_from_seed_ranges: min(converted)[0];
none models the ValueError raised by min on an empty list. -/
def Gardener.find_lowest_location_from_seed_ranges (g : Gardener) : Option Int :=
  (pyMin (g.convert_to_location_seed_ranges g.seed_ranges)).map Prod.fst

/-- The seed_ranges field after find_lowest_location_from_seed_ranges returns:
the list object aliased by self.seed_ranges is handed to the first category,
whose loop pops it empty; with no categories it is never touched. -/
def Gardener.seed_ranges_after_find_lowest (g : Gardener) : List (Int × Int) :=
  match g.categories with
  | [] => g.seed_ranges
  | c :: _ => c.convert_seed_range_post g.seed_ranges

/-- The comprehension indices range(0, len(initial_seeds), 2), i.e. 2*k for
k below (len+1)/2, consumed one by one; none models the IndexError raised
when initial_seeds[i + 1] falls off the end. -/
def buildSeedRangesAux (initial_seeds : List Int) : List Nat → Option (List (Int × Int))
  | [] => some []
  | k :: ks =>
      match initial_seeds.get? (2 * k), initial_seeds.get? (2 * k + 1) with
      | some a, some b => (buildSeedRangesAux initial_seeds ks).map (fun l => (a, a + b) :: l)
      | _, _ => none

/-- The seed_ranges construction of Gardener.parse_almanac:
(initial_seeds[i], initial_seeds[i] + initial_seeds[i+1]) for i in
range(0, len(initial_seeds), 2). -/
def buildSeedRanges (initial_seeds : List Int) : Option (List (Int × Int)) :=
  buildSeedRangesAux initial_seeds (List.range ((initial_seeds.length + 1) / 2))

/-- Multiset of integer points covered by a half-open range. -/
def rangePoints (r : Int × Int) : Multiset Int := Multiset.Ico r.1 r.2

/-- Multiset of points covered by a list of ranges, multiplicities included. -/
def listPoints (l : List (Int × Int)) : Multiset Int := (l.map rangePoints).sum

/-! ### List arithmetic helpers -/

theorem sum_map_le_sum_map {α : Type} (l : List α) (f g : α → Nat)
    (h : ∀ x ∈ l, f x ≤ g x) : (l.map f).sum ≤ (l.map g).sum := by
  induction l with
  | nil => simp
  | cons a t ih =>
      simp only [List.map_cons, List.sum_cons]
      have ha := h a (by simp)
      have ht := ih (fun x hx => h x (by simp [hx]))
      omega

theorem sum_map_add_sum_map {α : Type} (l : List α) (f g : α → Nat) :
    (l.map f).sum + (l.map g).sum = (l.map (fun x => f x + g x)).sum := by
  induction l with
  | nil => simp
  | cons a t ih =>
      simp only [List.map_cons, List.sum_cons]
      omega

theorem sum_map_slack {α : Type} (l : List α) (f g : α → Nat) (a : α) (k : Nat)
    (hmem : a ∈ l) (hle : ∀ x ∈ l, f x ≤ g x) (ha : f a + k ≤ g a) :
    (l.map f).sum + k ≤ (l.map g).sum := by
  induction l with
  | nil => simp at hmem
  | cons b t ih =>
      simp only [List.map_cons, List.sum_cons]
      rcases List.mem_cons.1 hmem with h | h
      · subst h
        have h2 := sum_map_le_sum_map t f g (fun x hx => hle x (by simp [hx]))
        omega
      · have h1 := hle b (by simp)
        have h2 := ih h (fun x hx => hle x (by simp [hx]))
        omega

theorem sum_map_le_length_mul {α : Type} (l : List α) (f : α → Nat) (c : Nat)
    (h : ∀ x ∈ l, f x ≤ c) : (l.map f).sum ≤ l.length * c := by
  induction l with
  | nil => simp
  | cons a t ih =>
      simp only [List.map_cons, List.sum_cons, List.length_cons]
      have ha := h a (by simp)
      have ht := ih (fun x hx => h x (by simp [hx]))
      have : (t.length + 1) * c = t.length * c + c := by ring
      omega

/-! ### Rule-scan lemmas -/

theorem findFirstOverlap_some {rules : List MapRule} {r : Int × Int} {m : MapRule}
    (h : findFirstOverlap rules r = some m) :
    m ∈ rules ∧ max r.1 m.source_start < min r.2 (m.source_start + m.length) := by
  induction rules with
  | nil => simp [findFirstOverlap] at h
  | cons m0 rest ih =>
      by_cases hov : max r.1 m0.source_start < min r.2 (m0.source_start + m0.length)
      · simp only [findFirstOverlap, if_pos hov, Option.some.injEq] at h
        subst h
        exact ⟨by simp, hov⟩
      · simp only [findFirstOverlap, if_neg hov] at h
        obtain ⟨hm, ho⟩ := ih h
        exact ⟨by simp [hm], ho⟩

theorem findFirstOverlap_none {rules : List MapRule} {r : Int × Int}
    (h : findFirstOverlap rules r = none) :
    ∀ m ∈ rules, ¬ max r.1 m.source_start < min r.2 (m.source_start + m.length) := by
  induction rules with
  | nil => simp
  | cons m0 rest ih =>
      by_cases hov : max r.1 m0.source_start < min r.2 (m0.source_start + m0.length)
      · simp only [findFirstOverlap, if_pos hov] at h
        exact Option.noConfusion h
      · simp only [findFirstOverlap, if_neg hov] at h
        intro m hm
        rcases List.mem_cons.1 hm with h1 | h1
        · subst h1; exact hov
        · exact ih h m h1

theorem findFirstOverlap_of_first {pre suf : List MapRule} {m : MapRule} {r : Int × Int}
    (hpre : ∀ m' ∈ pre, ¬ max r.1 m'.source_start < min r.2 (m'.source_start + m'.length))
    (hov : max r.1 m.source_start < min r.2 (m.source_start + m.length)) :
    findFirstOverlap (pre ++ m :: suf) r = some m := by
  induction pre with
  | nil => simp only [List.nil_append, findFirstOverlap, if_pos hov]
  | cons m0 rest ih =>
      have h0 := hpre m0 (by simp)
      simp only [List.cons_append, findFirstOverlap, if_neg h0]
      exact ih (fun m' hm' => hpre m' (by simp [hm']))

theorem applyFirstRule_of_first {pre suf : List MapRule} {m : MapRule} {n : Int}
    (hpre : ∀ m' ∈ pre, ¬ (m'.source_start ≤ n ∧ n < m'.source_start + m'.length))
    (hc : m.source_start ≤ n ∧ n < m.source_start + m.length) :
    applyFirstRule (pre ++ m :: suf) n = m.destination_start + (n - m.source_start) := by
  induction pre with
  | nil => simp [applyFirstRule, if_pos hc]
  | cons m0 rest ih =>
      have h0 := hpre m0 (by simp)
      simp only [List.cons_append, applyFirstRule, if_neg h0]
      exact ih (fun m' hm' => hpre m' (by simp [hm']))

theorem applyFirstRule_of_findFirstOverlap_some {rules : List MapRule} {r : Int × Int}
    {m : MapRule} {p : Int}
    (h : findFirstOverlap rules r = some m)
    (hp1 : r.1 ≤ p) (hp2 : p < r.2)
    (hc1 : m.source_start ≤ p) (hc2 : p < m.source_start + m.length) :
    applyFirstRule rules p = m.destination_start + (p - m.source_start) := by
  induction rules with
  | nil => simp [findFirstOverlap] at h
  | cons m0 rest ih =>
      by_cases hov : max r.1 m0.source_start < min r.2 (m0.source_start + m0.length)
      · simp only [findFirstOverlap, if_pos hov, Option.some.injEq] at h
        subst h
        simp only [applyFirstRule, if_pos (And.intro hc1 hc2)]
      · have hnc : ¬ (m0.source_start ≤ p ∧ p < m0.source_start + m0.length) := by
          intro hcon
          exact hov (by omega)
        simp only [findFirstOverlap, if_neg hov] at h
        simp only [applyFirstRule, if_neg hnc]
        exact ih h

theorem applyFirstRule_of_findFirstOverlap_none {rules : List MapRule} {r : Int × Int}
    {p : Int}
    (h : findFirstOverlap rules r = none) (hp1 : r.1 ≤ p) (hp2 : p < r.2) :
    applyFirstRule rules p = p := by
  induction rules with
  | nil => simp [applyFirstRule]
  | cons m0 rest ih =>
      by_cases hov : max r.1 m0.source_start < min r.2 (m0.source_start + m0.length)
      · simp only [findFirstOverlap, if_pos hov] at h
        exact Option.noConfusion h
      · have hnc : ¬ (m0.source_start ≤ p ∧ p < m0.source_start + m0.length) := by
          intro hcon
          exact hov (by omega)
        simp only [findFirstOverlap, if_neg hov] at h
        simp only [applyFirstRule, if_neg hnc]
        exact ih h

theorem findFirstOverlap_none_of_pointwise {rules : List MapRule} {s e : Int}
    (h : ∀ m ∈ rules, ∀ p : Int, s ≤ p → p < e →
        ¬ (m.source_start ≤ p ∧ p < m.source_start + m.length)) :
    findFirstOverlap rules (s, e) = none := by
  induction rules with
  | nil => rfl
  | cons m0 rest ih =>
      have h0 : ¬ max (s, e).1 m0.source_start < min (s, e).2 (m0.source_start + m0.length) := by
        intro hov
        have := h m0 (by simp) (max s m0.source_start) (by omega) (by omega)
        omega
      simp only [findFirstOverlap, if_neg h0]
      exact ih (fun m hm => h m (by simp [hm]))

/-! ### Measure lemmas: each loop iteration strictly shrinks the total weight -/

theorem measureWL_cons (rules : List MapRule) (r : Int × Int) (l : List (Int × Int)) :
    measureWL rules (r :: l) = weight rules r + measureWL rules l := by
  simp [measureWL]

theorem measureWL_append (rules : List MapRule) (a b : List (Int × Int)) :
    measureWL rules (a ++ b) = measureWL rules a + measureWL rules b := by
  simp [measureWL]

theorem weight_pos (rules : List MapRule) (r : Int × Int) : 1 ≤ weight rules r := by
  unfold weight
  omega

theorem bInd_split {b lo mid1 mid2 hi : Int}
    (h1 : lo ≤ mid1) (h2 : mid1 ≤ mid2) (h3 : mid2 ≤ hi) :
    bInd b lo mid1 + bInd b mid2 hi ≤ bInd b lo hi := by
  unfold bInd
  split_ifs <;> omega

theorem bcount_split (m' : MapRule) {r : Int × Int} {os oe : Int}
    (h1 : r.1 ≤ os) (h2 : os ≤ oe) (h3 : oe ≤ r.2) :
    bcount m' (r.1, os) + bcount m' (oe, r.2) ≤ bcount m' r := by
  have ha := bInd_split (b := m'.source_start) h1 h2 h3
  have hb := bInd_split (b := m'.source_start + m'.length) h1 h2 h3
  unfold bcount at *
  simp only at *
  omega

theorem measureWL_residuals_lt {rules : List MapRule} {m : MapRule} {r : Int × Int}
    (hmem : m ∈ rules)
    (hov : max r.1 m.source_start < min r.2 (m.source_start + m.length)) :
    measureWL rules (residuals m r) < weight rules r := by
  have h1 : r.1 ≤ max r.1 m.source_start := le_max_left _ _
  have h1s : m.source_start ≤ max r.1 m.source_start := le_max_right _ _
  have h2 : max r.1 m.source_start ≤ min r.2 (m.source_start + m.length) := le_of_lt hov
  have h3 : min r.2 (m.source_start + m.length) ≤ r.2 := min_le_left _ _
  have h3s : min r.2 (m.source_start + m.length) ≤ m.source_start + m.length := min_le_right _ _
  have hpt : ∀ m' ∈ rules,
      bcount m' (r.1, max r.1 m.source_start)
        + bcount m' (min r.2 (m.source_start + m.length), r.2) ≤ bcount m' r :=
    fun m' _ => by
      have := bcount_split m' h1 h2 h3
      omega
  unfold residuals
  by_cases hc1 : min r.2 (m.source_start + m.length) < r.2 <;>
    by_cases hc2 : r.1 < max r.1 m.source_start
  · -- both residual sub-ranges pushed
    have hosm : max r.1 m.source_start = m.source_start := by omega
    have hoem : min r.2 (m.source_start + m.length) = m.source_start + m.length := by omega
    have hm0 : bcount m (r.1, max r.1 m.source_start)
        + bcount m (min r.2 (m.source_start + m.length), r.2) + 2 ≤ bcount m r := by
      unfold bcount bInd
      simp only
      split_ifs <;> omega
    have hsum := sum_map_slack rules
      (fun m' => bcount m' (r.1, max r.1 m.source_start)
        + bcount m' (min r.2 (m.source_start + m.length), r.2))
      (fun m' => bcount m' r) m 2 hmem hpt hm0
    have hsplit := sum_map_add_sum_map rules
      (fun m' => bcount m' (r.1, max r.1 m.source_start))
      (fun m' => bcount m' (min r.2 (m.source_start + m.length), r.2))
    simp only [if_pos hc1, if_pos hc2]
    rw [measureWL_append, measureWL_cons, measureWL_cons]
    unfold measureWL weight
    simp only [List.map_nil, List.sum_nil]
    omega
  · -- only the suffix is pushed
    have hm0 : bcount m (min r.2 (m.source_start + m.length), r.2) + 1 ≤ bcount m r := by
      have hoem : min r.2 (m.source_start + m.length) = m.source_start + m.length := by omega
      unfold bcount bInd
      simp only
      split_ifs <;> omega
    have hle1 : ∀ m' ∈ rules,
        bcount m' (min r.2 (m.source_start + m.length), r.2) ≤ bcount m' r :=
      fun m' hm' => by have := hpt m' hm'; omega
    have hsum := sum_map_slack rules
      (fun m' => bcount m' (min r.2 (m.source_start + m.length), r.2))
      (fun m' => bcount m' r) m 1 hmem hle1 hm0
    simp only [if_pos hc1, if_neg hc2]
    rw [measureWL_append, measureWL_cons]
    unfold measureWL weight
    simp only [List.map_nil, List.sum_nil]
    omega
  · -- only the untouched head part is pushed
    have hm0 : bcount m (r.1, max r.1 m.source_start) + 1 ≤ bcount m r := by
      have hosm : max r.1 m.source_start = m.source_start := by omega
      unfold bcount bInd
      simp only
      split_ifs <;> omega
    have hle1 : ∀ m' ∈ rules, bcount m' (r.1, max r.1 m.source_start) ≤ bcount m' r :=
      fun m' hm' => by have := hpt m' hm'; omega
    have hsum := sum_map_slack rules
      (fun m' => bcount m' (r.1, max r.1 m.source_start))
      (fun m' => bcount m' r) m 1 hmem hle1 hm0
    simp only [if_neg hc1, if_pos hc2, List.nil_append]
    rw [measureWL_cons]
    unfold measureWL weight
    simp only [List.map_nil, List.sum_nil]
    omega
  · -- the rule swallows the whole range, nothing pushed back
    simp only [if_neg hc1, if_neg hc2]
    have := weight_pos rules r
    simp [measureWL]
    omega

theorem weight_le (rules : List MapRule) (r : Int × Int) :
    weight rules r ≤ 2 * rules.length + 1 := by
  have h := sum_map_le_length_mul rules (fun m => bcount m r) 2
    (fun m _ => by simp only [bcount, bInd]; split_ifs <;> omega)
  unfold weight
  omega

theorem measureWL_le (rules : List MapRule) (l : List (Int × Int)) :
    measureWL rules l ≤ l.length * (2 * rules.length + 1) := by
  exact sum_map_le_length_mul l (weight rules) (2 * rules.length + 1)
    (fun r _ => weight_le rules r)

theorem measureWL_nil_rules (l : List (Int × Int)) : measureWL [] l = l.length := by
  induction l with
  | nil => rfl
  | cons r t ih =>
      rw [measureWL_cons, ih]
      unfold weight
      simp
      omega

/-! ### Loop unfolding and the fuel-indexed induction lemmas -/

theorem convertLoopF_nil (rules : List MapRule) (fuel : Nat) (acc : List (Int × Int)) :
    convertLoopF rules fuel [] acc = some ([], acc) := by
  cases fuel <;> rfl

theorem convertLoopF_cons_none {rules : List MapRule} {r : Int × Int}
    (fuel : Nat) (rest acc : List (Int × Int))
    (h : findFirstOverlap rules r = none) :
    convertLoopF rules (fuel + 1) (r :: rest) acc
      = convertLoopF rules fuel rest (acc ++ [r]) := by
  simp [convertLoopF, h]

theorem convertLoopF_cons_some {rules : List MapRule} {r : Int × Int} {m : MapRule}
    (fuel : Nat) (rest acc : List (Int × Int))
    (h : findFirstOverlap rules r = some m) :
    convertLoopF rules (fuel + 1) (r :: rest) acc
      = convertLoopF rules fuel (residuals m r ++ rest) (acc ++ [translated m r]) := by
  simp [convertLoopF, h]

theorem convertLoopF_some (rules : List MapRule) :
    ∀ (fuel : Nat) (l acc : List (Int × Int)), measureWL rules l ≤ fuel →
    ∃ out, convertLoopF rules fuel l acc = some ([], out) := by
  intro fuel
  induction fuel with
  | zero =>
      intro l acc h
      cases l with
      | nil => exact ⟨acc, convertLoopF_nil _ _ _⟩
      | cons r rest =>
          have := weight_pos rules r
          rw [measureWL_cons] at h
          omega
  | succ n ih =>
      intro l acc h
      cases l with
      | nil => exact ⟨acc, convertLoopF_nil _ _ _⟩
      | cons r rest =>
          rw [measureWL_cons] at h
          cases hf : findFirstOverlap rules r with
          | none =>
              have hle : measureWL rules rest ≤ n := by
                have := weight_pos rules r
                omega
              obtain ⟨out, ho⟩ := ih rest (acc ++ [r]) hle
              exact ⟨out, by rw [convertLoopF_cons_none n rest acc hf, ho]⟩
          | some m =>
              obtain ⟨hmem, hov⟩ := findFirstOverlap_some hf
              have hdec := measureWL_residuals_lt hmem hov
              have hle : measureWL rules (residuals m r ++ rest) ≤ n := by
                rw [measureWL_append]
                omega
              obtain ⟨out, ho⟩ := ih _ _ hle
              exact ⟨out, by rw [convertLoopF_cons_some n rest acc hf, ho]⟩

theorem convertLoopF_irrel (rules : List MapRule) :
    ∀ (f1 f2 : Nat) (l acc : List (Int × Int)),
    measureWL rules l ≤ f1 → measureWL rules l ≤ f2 →
    convertLoopF rules f1 l acc = convertLoopF rules f2 l acc := by
  intro f1
  induction f1 with
  | zero =>
      intro f2 l acc h1 h2
      cases l with
      | nil => rw [convertLoopF_nil, convertLoopF_nil]
      | cons r rest =>
          have := weight_pos rules r
          rw [measureWL_cons] at h1
          omega
  | succ n ih =>
      intro f2 l acc h1 h2
      cases l with
      | nil => rw [convertLoopF_nil, convertLoopF_nil]
      | cons r rest =>
          cases f2 with
          | zero =>
              have := weight_pos rules r
              rw [measureWL_cons] at h2
              omega
          | succ k =>
              rw [measureWL_cons] at h1 h2
              cases hf : findFirstOverlap rules r with
              | none =>
                  rw [convertLoopF_cons_none n rest acc hf,
                    convertLoopF_cons_none k rest acc hf]
                  have := weight_pos rules r
                  exact ih k rest (acc ++ [r]) (by omega) (by omega)
              | some m =>
                  obtain ⟨hmem, hov⟩ := findFirstOverlap_some hf
                  have hdec := measureWL_residuals_lt hmem hov
                  rw [convertLoopF_cons_some n rest acc hf,
                    convertLoopF_cons_some k rest acc hf]
                  exact ih k _ _ (by rw [measureWL_append]; omega)
                    (by rw [measureWL_append]; omega)

theorem convertLoopF_empty_rules :
    ∀ (fuel : Nat) (l acc : List (Int × Int)), l.length ≤ fuel →
    convertLoopF [] fuel l acc = some ([], acc ++ l) := by
  intro fuel
  induction fuel with
  | zero =>
      intro l acc h
      cases l with
      | nil => simp [convertLoopF_nil]
      | cons r rest => simp at h
  | succ n ih =>
      intro l acc h
      cases l with
      | nil => simp [convertLoopF_nil]
      | cons r rest =>
          have hf : findFirstOverlap [] r = none := rfl
          rw [convertLoopF_cons_none n rest acc hf, ih rest (acc ++ [r]) (by simp at h; omega)]
          simp

theorem convertLoopF_mem (rules : List MapRule) (r0 : Int × Int)
    (hnone : findFirstOverlap rules r0 = none) :
    ∀ (fuel : Nat) (l acc w out : List (Int × Int)), measureWL rules l ≤ fuel →
    convertLoopF rules fuel l acc = some (w, out) →
    (r0 ∈ l ∨ r0 ∈ acc) → r0 ∈ out := by
  intro fuel
  induction fuel with
  | zero =>
      intro l acc w out h hrun hmem
      cases l with
      | nil =>
          rw [convertLoopF_nil] at hrun
          simp only [Option.some.injEq, Prod.mk.injEq] at hrun
          obtain ⟨-, h2⟩ := hrun
          subst h2
          rcases hmem with hm | hm
          · simp at hm
          · exact hm
      | cons r rest =>
          have := weight_pos rules r
          rw [measureWL_cons] at h
          omega
  | succ n ih =>
      intro l acc w out h hrun hmem
      cases l with
      | nil =>
          rw [convertLoopF_nil] at hrun
          simp only [Option.some.injEq, Prod.mk.injEq] at hrun
          obtain ⟨-, h2⟩ := hrun
          subst h2
          rcases hmem with hm | hm
          · simp at hm
          · exact hm
      | cons r rest =>
          rw [measureWL_cons] at h
          cases hf : findFirstOverlap rules r with
          | none =>
              rw [convertLoopF_cons_none n rest acc hf] at hrun
              have := weight_pos rules r
              refine ih rest (acc ++ [r]) w out (by omega) hrun ?_
              rcases hmem with hm | hm
              · rcases List.mem_cons.1 hm with hm1 | hm1
                · subst hm1
                  exact Or.inr (by simp)
                · exact Or.inl hm1
              · exact Or.inr (by simp [hm])
          | some m =>
              rw [convertLoopF_cons_some n rest acc hf] at hrun
              obtain ⟨hmemr, hov⟩ := findFirstOverlap_some hf
              have hdec := measureWL_residuals_lt hmemr hov
              refine ih (residuals m r ++ rest) (acc ++ [translated m r]) w out
                (by rw [measureWL_append]; omega) hrun ?_
              rcases hmem with hm | hm
              · rcases List.mem_cons.1 hm with hm1 | hm1
                · subst hm1
                  rw [hnone] at hf
                  exact Option.noConfusion hf
                · exact Or.inl (by simp [hm1])
              · exact Or.inr (by simp [hm])

/-! ### Point multiset lemmas: the coverage invariant of the drain loop -/

theorem listPoints_nil : listPoints [] = 0 := rfl

theorem listPoints_cons (r : Int × Int) (l : List (Int × Int)) :
    listPoints (r :: l) = rangePoints r + listPoints l := by
  simp [listPoints]

theorem listPoints_append (a b : List (Int × Int)) :
    listPoints (a ++ b) = listPoints a + listPoints b := by
  simp [listPoints]

theorem listPoints_reverse (l : List (Int × Int)) :
    listPoints l.reverse = listPoints l := by
  simp only [listPoints, List.map_reverse]
  exact List.sum_reverse _

theorem points_split_translate {a os oe b d : Int}
    (h1 : a ≤ os) (h2 : os ≤ oe) (h3 : oe ≤ b)
    (f : Int → Int) (hf : ∀ p : Int, os ≤ p → p < oe → f p = p + d) :
    (Multiset.Ico a b).map f
      = (Multiset.Ico oe b).map f + (Multiset.Ico a os).map f
          + Multiset.Ico (os + d) (oe + d) := by
  have hsplit : Multiset.Ico a b
      = Multiset.Ico a os + Multiset.Ico os oe + Multiset.Ico oe b := by
    rw [Multiset.Ico_add_Ico_eq_Ico h1 h2, Multiset.Ico_add_Ico_eq_Ico (h1.trans h2) h3]
  have hmid : (Multiset.Ico os oe).map f = Multiset.Ico (os + d) (oe + d) := by
    have hcg : (Multiset.Ico os oe).map f = (Multiset.Ico os oe).map (fun p => p + d) :=
      Multiset.map_congr rfl
        (fun p hp => hf p (Multiset.mem_Ico.1 hp).1 (Multiset.mem_Ico.1 hp).2)
    rw [hcg, Multiset.map_add_right_Ico]
  rw [hsplit, Multiset.map_add, Multiset.map_add, hmid]
  abel

theorem loop_points_step {rules : List MapRule} {m : MapRule} {r : Int × Int}
    (hf : findFirstOverlap rules r = some m) :
    (rangePoints r).map (applyFirstRule rules)
      = (listPoints (residuals m r)).map (applyFirstRule rules)
          + rangePoints (translated m r) := by
  obtain ⟨hmem, hov⟩ := findFirstOverlap_some hf
  have h1 : r.1 ≤ max r.1 m.source_start := le_max_left _ _
  have h2 : max r.1 m.source_start ≤ min r.2 (m.source_start + m.length) := le_of_lt hov
  have h3 : min r.2 (m.source_start + m.length) ≤ r.2 := min_le_left _ _
  have hres : listPoints (residuals m r)
      = Multiset.Ico (min r.2 (m.source_start + m.length)) r.2
          + Multiset.Ico r.1 (max r.1 m.source_start) := by
    unfold residuals
    by_cases hc1 : min r.2 (m.source_start + m.length) < r.2 <;>
      by_cases hc2 : r.1 < max r.1 m.source_start
    · rw [if_pos hc1, if_pos hc2]
      simp [listPoints, rangePoints]
    · rw [if_pos hc1, if_neg hc2, Multiset.Ico_eq_zero hc2]
      simp [listPoints, rangePoints]
    · rw [if_neg hc1, if_pos hc2, Multiset.Ico_eq_zero hc1]
      simp [listPoints, rangePoints]
    · rw [if_neg hc1, if_neg hc2, Multiset.Ico_eq_zero hc1, Multiset.Ico_eq_zero hc2]
      simp [listPoints]
  have hfp : ∀ p : Int, max r.1 m.source_start ≤ p →
      p < min r.2 (m.source_start + m.length) →
      applyFirstRule rules p = p + (m.destination_start - m.source_start) := by
    intro p hp1 hp2
    have := applyFirstRule_of_findFirstOverlap_some hf
      (le_trans h1 hp1) (lt_of_lt_of_le hp2 h3)
      (le_trans (le_max_right _ _) hp1) (lt_of_lt_of_le hp2 (min_le_right _ _))
    omega
  have htr : rangePoints (translated m r)
      = Multiset.Ico (max r.1 m.source_start + (m.destination_start - m.source_start))
          (min r.2 (m.source_start + m.length) + (m.destination_start - m.source_start)) := by
    unfold translated rangePoints
    simp only
    congr 1 <;> ring
  calc (rangePoints r).map (applyFirstRule rules)
      = (Multiset.Ico (min r.2 (m.source_start + m.length)) r.2).map (applyFirstRule rules)
          + (Multiset.Ico r.1 (max r.1 m.source_start)).map (applyFirstRule rules)
          + Multiset.Ico (max r.1 m.source_start + (m.destination_start - m.source_start))
              (min r.2 (m.source_start + m.length) + (m.destination_start - m.source_start)) :=
        points_split_translate h1 h2 h3 _ hfp
    _ = (listPoints (residuals m r)).map (applyFirstRule rules)
          + rangePoints (translated m r) := by
        rw [hres, htr, Multiset.map_add]

theorem points_passthrough {rules : List MapRule} {r : Int × Int}
    (hf : findFirstOverlap rules r = none) :
    (rangePoints r).map (applyFirstRule rules) = rangePoints r := by
  have hcg : (rangePoints r).map (applyFirstRule rules) = (rangePoints r).map id := by
    refine Multiset.map_congr rfl ?_
    intro p hp
    rw [rangePoints] at hp
    exact applyFirstRule_of_findFirstOverlap_none hf
      (Multiset.mem_Ico.1 hp).1 (Multiset.mem_Ico.1 hp).2
  rw [hcg, Multiset.map_id]

theorem convertLoopF_points (rules : List MapRule) :
    ∀ (fuel : Nat) (l acc w out : List (Int × Int)), measureWL rules l ≤ fuel →
    convertLoopF rules fuel l acc = some (w, out) →
    listPoints out = listPoints acc + (listPoints l).map (applyFirstRule rules) := by
  intro fuel
  induction fuel with
  | zero =>
      intro l acc w out h hrun
      cases l with
      | nil =>
          rw [convertLoopF_nil] at hrun
          simp only [Option.some.injEq, Prod.mk.injEq] at hrun
          obtain ⟨-, h2⟩ := hrun
          subst h2
          simp [listPoints_nil]
      | cons r rest =>
          have := weight_pos rules r
          rw [measureWL_cons] at h
          omega
  | succ n ih =>
      intro l acc w out h hrun
      cases l with
      | nil =>
          rw [convertLoopF_nil] at hrun
          simp only [Option.some.injEq, Prod.mk.injEq] at hrun
          obtain ⟨-, h2⟩ := hrun
          subst h2
          simp [listPoints_nil]
      | cons r rest =>
          rw [measureWL_cons] at h
          cases hf : findFirstOverlap rules r with
          | none =>
              rw [convertLoopF_cons_none n rest acc hf] at hrun
              have := weight_pos rules r
              have hrec := ih rest (acc ++ [r]) w out (by omega) hrun
              rw [hrec, listPoints_append, listPoints_cons, listPoints_cons, listPoints_nil,
                Multiset.map_add, points_passthrough hf]
              abel
          | some m =>
              rw [convertLoopF_cons_some n rest acc hf] at hrun
              obtain ⟨hmemr, hov⟩ := findFirstOverlap_some hf
              have hdec := measureWL_residuals_lt hmemr hov
              have hrec := ih (residuals m r ++ rest) (acc ++ [translated m r]) w out
                (by rw [measureWL_append]; omega) hrun
              rw [hrec, listPoints_append, listPoints_append, listPoints_cons,
                listPoints_cons, listPoints_nil, Multiset.map_add, Multiset.map_add,
                loop_points_step hf]
              abel

/-! ### Function-level corollaries -/

theorem convert_seed_range_run (c : Category) (l : List (Int × Int)) :
    ∃ out, convertLoopF c.category_map (measureWL c.category_map l.reverse) l.reverse []
        = some ([], out)
      ∧ c.convert_seed_range l = out
      ∧ c.convert_seed_range_post l = [] := by
  obtain ⟨out, h⟩ := convertLoopF_some c.category_map _ l.reverse [] (le_refl _)
  refine ⟨out, h, ?_, ?_⟩
  · unfold Category.convert_seed_range
    rw [h]
  · unfold Category.convert_seed_range_post
    rw [h]
    rfl

theorem listPoints_convert (c : Category) (l : List (Int × Int)) :
    listPoints (c.convert_seed_range l)
      = (listPoints l).map c.convert_initial_seed := by
  obtain ⟨out, hrun, heq, -⟩ := convert_seed_range_run c l
  rw [heq]
  have hpts := convertLoopF_points c.category_map _ l.reverse [] [] out (le_refl _) hrun
  rw [hpts, listPoints_nil, listPoints_reverse]
  simp only [zero_add]
  rfl

theorem convert_seed_range_singleton (c : Category) (n : Int) :
    c.convert_seed_range [(n, n + 1)]
      = [(c.convert_initial_seed n, c.convert_initial_seed n + 1)] := by
  have hrev : ([(n, n + 1)] : List (Int × Int)).reverse = [(n, n + 1)] := rfl
  have hw : ∀ m' ∈ c.category_map, bcount m' ((n : Int), n + 1) = 0 := by
    intro m' _
    unfold bcount bInd
    simp only
    split_ifs <;> omega
  have hmu : measureWL c.category_map [(n, n + 1)] = 1 := by
    rw [measureWL_cons]
    unfold measureWL weight
    simp only [List.map_nil, List.sum_nil]
    have : (c.category_map.map fun m' => bcount m' ((n : Int), n + 1)).sum = 0 :=
      List.sum_eq_zero (fun x hx => by
        obtain ⟨m', hm', hval⟩ := List.mem_map.1 hx
        rw [← hval]
        exact hw m' hm')
    omega
  unfold Category.convert_seed_range
  rw [hrev, hmu]
  cases hf : findFirstOverlap c.category_map (n, n + 1) with
  | none =>
      rw [convertLoopF_cons_none 0 [] [] hf, convertLoopF_nil]
      have happ : applyFirstRule c.category_map n = n :=
        applyFirstRule_of_findFirstOverlap_none hf (le_refl n) (by omega)
      unfold Category.convert_initial_seed
      rw [happ]
      rfl
  | some m =>
      obtain ⟨hmem, hov⟩ := findFirstOverlap_some hf
      simp only at hov
      have hsrc : m.source_start ≤ n := by omega
      have hlen : n < m.source_start + m.length := by omega
      have hres : residuals m (n, n + 1) = [] := by
        unfold residuals
        rw [if_neg (by simp only; omega), if_neg (by simp only; omega)]
        rfl
      rw [convertLoopF_cons_some 0 [] [] hf, hres]
      simp only [List.nil_append, convertLoopF_nil]
      have happ : applyFirstRule c.category_map n
          = m.destination_start + (n - m.source_start) :=
        applyFirstRule_of_findFirstOverlap_some hf (le_refl n) (by omega) hsrc hlen
      unfold Category.convert_initial_seed
      rw [happ]
      unfold translated
      simp only [List.nil_append]
      have hmax : max n m.source_start = n := by omega
      have hmin : min (n + 1) (m.source_start + m.length) = n + 1 := by omega
      simp only [hmax, hmin]
      have e1 : n - m.source_start + m.destination_start
          = m.destination_start + (n - m.source_start) := by ring
      have e2 : n + 1 - m.source_start + m.destination_start
          = m.destination_start + (n - m.source_start) + 1 := by ring
      rw [e1, e2]

theorem convert_seed_range_empty_rules (cid : String) (l : List (Int × Int)) :
    (Category.mk cid []).convert_seed_range l = l.reverse := by
  unfold Category.convert_seed_range
  have h := convertLoopF_empty_rules (measureWL [] l.reverse) l.reverse []
    (by rw [measureWL_nil_rules])
  simp only at h
  rw [h]
  rfl

/-! ### Python min over pairs -/

theorem pyMin_fold_spec (ys : List (Int × Int)) : ∀ z : Int × Int,
    (ys.foldl (fun cur y =>
        if y.1 < cur.1 ∨ (y.1 = cur.1 ∧ y.2 < cur.2) then y else cur) z) ∈ z :: ys
    ∧ ∀ y ∈ z :: ys,
        ¬ (y.1 < (ys.foldl (fun cur y =>
            if y.1 < cur.1 ∨ (y.1 = cur.1 ∧ y.2 < cur.2) then y else cur) z).1
          ∨ (y.1 = (ys.foldl (fun cur y =>
            if y.1 < cur.1 ∨ (y.1 = cur.1 ∧ y.2 < cur.2) then y else cur) z).1
            ∧ y.2 < (ys.foldl (fun cur y =>
            if y.1 < cur.1 ∨ (y.1 = cur.1 ∧ y.2 < cur.2) then y else cur) z).2)) := by
  induction ys with
  | nil =>
      intro z
      refine ⟨by simp, ?_⟩
      intro y hy
      rcases List.mem_cons.1 hy with h | h
      · have e1 : y.1 = z.1 := by rw [h]
        have e2 : y.2 = z.2 := by rw [h]
        simp only [List.foldl_nil]
        omega
      · simp at h
  | cons w ws ih =>
      intro z
      simp only [List.foldl_cons]
      by_cases hcmp : w.1 < z.1 ∨ (w.1 = z.1 ∧ w.2 < z.2)
      · rw [if_pos hcmp]
        obtain ⟨hm, hmin⟩ := ih w
        constructor
        · rcases List.mem_cons.1 hm with h | h
          · simp [h]
          · simp [h]
        · intro y hy
          rcases List.mem_cons.1 hy with h | h
          · have e1 : y.1 = z.1 := by rw [h]
            have e2 : y.2 = z.2 := by rw [h]
            have hw := hmin w (by simp)
            omega
          · rcases List.mem_cons.1 h with h1 | h1
            · have e1 : y.1 = w.1 := by rw [h1]
              have e2 : y.2 = w.2 := by rw [h1]
              have hw := hmin w (by simp)
              omega
            · exact hmin y (by simp [h1])
      · rw [if_neg hcmp]
        obtain ⟨hm, hmin⟩ := ih z
        constructor
        · rcases List.mem_cons.1 hm with h | h
          · simp [h]
          · simp [h]
        · intro y hy
          rcases List.mem_cons.1 hy with h | h
          · have e1 : y.1 = z.1 := by rw [h]
            have e2 : y.2 = z.2 := by rw [h]
            have hz := hmin z (by simp)
            omega
          · rcases List.mem_cons.1 h with h1 | h1
            · have e1 : y.1 = w.1 := by rw [h1]
              have e2 : y.2 = w.2 := by rw [h1]
              have hz := hmin z (by simp)
              omega
            · exact hmin y (by simp [h1])

theorem pyMin_spec (l : List (Int × Int)) (hne : l ≠ []) :
    ∃ mn, pyMin l = some mn ∧ mn ∈ l ∧ ∀ y ∈ l, mn.1 ≤ y.1 := by
  cases l with
  | nil => exact absurd rfl hne
  | cons x xs =>
      obtain ⟨hm, hmin⟩ := pyMin_fold_spec xs x
      refine ⟨_, rfl, hm, ?_⟩
      intro y hy
      have := hmin y hy
      omega

/-! ### Seed-range construction of parse_almanac -/

theorem buildSeedRangesAux_shift (a b : Int) (t : List Int) (ks : List Nat) :
    buildSeedRangesAux (a :: b :: t) (ks.map (· + 1)) = buildSeedRangesAux t ks := by
  induction ks with
  | nil => rfl
  | cons k ks ih =>
      simp only [List.map_cons, buildSeedRangesAux]
      have e1 : 2 * (k + 1) = 2 * k + 1 + 1 := by omega
      rw [e1]
      simp only [List.get?_cons_succ]
      rw [ih]

theorem buildSeedRanges_nil : buildSeedRanges [] = some [] := rfl

theorem buildSeedRanges_one (a : Int) : buildSeedRanges [a] = none := by
  unfold buildSeedRanges
  simp [List.range_succ, buildSeedRangesAux]

theorem buildSeedRanges_cons2 (a b : Int) (t : List Int) :
    buildSeedRanges (a :: b :: t) = (buildSeedRanges t).map (fun l => (a, a + b) :: l) := by
  unfold buildSeedRanges
  have hlen : ((a :: b :: t).length + 1) / 2 = (t.length + 1) / 2 + 1 := by
    simp only [List.length_cons]
    omega
  rw [hlen, List.range_succ_eq_map]
  simp only [buildSeedRangesAux, Nat.mul_zero, List.get?]
  have hmap : (List.range ((t.length + 1) / 2)).map Nat.succ
      = (List.range ((t.length + 1) / 2)).map (· + 1) := by
    simp [Nat.succ_eq_add_one]
  rw [hmap, buildSeedRangesAux_shift]

theorem buildSeedRanges_odd (n : Nat) : ∀ seeds : List Int, seeds.length ≤ n →
    seeds.length % 2 = 1 → buildSeedRanges seeds = none := by
  induction n with
  | zero =>
      intro seeds h hodd
      cases seeds with
      | nil => simp at hodd
      | cons a t => simp at h
  | succ n ih =>
      intro seeds h hodd
      cases seeds with
      | nil => simp at hodd
      | cons a t =>
          cases t with
          | nil => exact buildSeedRanges_one a
          | cons b t2 =>
              rw [buildSeedRanges_cons2]
              simp only [List.length_cons] at h hodd
              rw [ih t2 (by omega) (by omega)]
              rfl

theorem buildSeedRanges_even (n : Nat) : ∀ seeds : List Int, seeds.length ≤ n →
    seeds.length % 2 = 0 →
    ∃ l, buildSeedRanges seeds = some l ∧ l.length = seeds.length / 2
      ∧ ∀ (k : Nat) (a b : Int), seeds.get? (2 * k) = some a →
          seeds.get? (2 * k + 1) = some b → l.get? k = some (a, a + b) := by
  induction n with
  | zero =>
      intro seeds h heven
      cases seeds with
      | nil =>
          refine ⟨[], buildSeedRanges_nil, rfl, ?_⟩
          intro k a b h1 h2
          simp at h1
      | cons a t => simp at h
  | succ n ih =>
      intro seeds h heven
      cases seeds with
      | nil =>
          refine ⟨[], buildSeedRanges_nil, rfl, ?_⟩
          intro k a b h1 h2
          simp at h1
      | cons a t =>
          cases t with
          | nil => simp at heven
          | cons b t2 =>
              simp only [List.length_cons] at h heven
              obtain ⟨l, hl, hlen, hidx⟩ := ih t2 (by omega) (by omega)
              refine ⟨(a, a + b) :: l, ?_, ?_, ?_⟩
              · rw [buildSeedRanges_cons2, hl]
                rfl
              · simp only [List.length_cons, hlen]
                omega
              · intro k x y h1 h2
                cases k with
                | zero =>
                    have e0 : (2 : Nat) * 0 = 0 := rfl
                    rw [e0] at h1
                    simp only [List.get?_cons_zero, Option.some.injEq] at h1
                    have e1 : (2 : Nat) * 0 + 1 = 0 + 1 := rfl
                    rw [e1] at h2
                    simp only [List.get?_cons_succ, List.get?_cons_zero,
                      Option.some.injEq] at h2
                    subst h1
                    subst h2
                    rfl
                | succ k2 =>
                    have e1 : 2 * (k2 + 1) = 2 * k2 + 1 + 1 := by omega
                    rw [e1] at h1 h2
                    simp only [List.get?_cons_succ] at h1 h2
                    simp only [List.get?_cons_succ]
                    exact hidx k2 x y h1 h2

/-! ### Claim theorems -/

/-- Claim C1: for every list of half-open ranges and every Category, the
multiset of points of the ranges returned by convert_seed_range equals the
image of the multiset of input points under the Category's piecewise map
(convert_initial_seed: first containing rule's offset, else identity), so
every input point is accounted for exactly once in the output. -/
theorem convert_seed_range_coverage (c : Category) (l : List (Int × Int)) :
    listPoints (c.convert_seed_range l) = (listPoints l).map c.convert_initial_seed :=
  listPoints_convert c l

/-- Claim C2 counterexample: convert_seed_range pops the caller's list empty,
so after find_lowest_location_from_seed_ranges the gardener's seed_ranges no
longer holds the same ranges as before, refuting the purity claim. -/
theorem convert_mutates_counterexample :
    (Gardener.mk [] [((0 : Int), (1 : Int))]
        [⟨"a", [⟨1, 0, 1⟩]⟩]).seed_ranges_after_find_lowest
      ≠ (Gardener.mk [] [((0 : Int), (1 : Int))] [⟨"a", [⟨1, 0, 1⟩]⟩]).seed_ranges := by
  decide

/-- Claim C2 amended: convert_seed_range drains the list object passed to it,
so after find_lowest_location_from_seed_ranges the gardener's seed_ranges is
empty whenever at least one category exists, and is untouched only when the
category list is empty. -/
theorem seed_ranges_drained (g : Gardener) :
    (g.categories = [] → g.seed_ranges_after_find_lowest = g.seed_ranges)
    ∧ (g.categories ≠ [] → g.seed_ranges_after_find_lowest = []) := by
  constructor
  · intro h
    simp [Gardener.seed_ranges_after_find_lowest, h]
  · intro h
    cases hc : g.categories with
    | nil => exact absurd hc h
    | cons c cs =>
        simp only [Gardener.seed_ranges_after_find_lowest, hc]
        obtain ⟨out, -, -, hpost⟩ := convert_seed_range_run c g.seed_ranges
        exact hpost

/-- Witness for the amended C2 at a concrete gardener with one category. -/
theorem seed_ranges_drained_witness :
    (Gardener.mk [] [((0 : Int), (1 : Int))]
        [⟨"a", [⟨1, 0, 1⟩]⟩]).seed_ranges_after_find_lowest = [] :=
  (seed_ranges_drained (Gardener.mk [] [((0 : Int), (1 : Int))] [⟨"a", [⟨1, 0, 1⟩]⟩])).2
    (by decide)

/-- Claim C3 counterexample: the range (2, 8) pushed through the two example
categories yields (1002, 1005) and (105, 108); the claimed output (107, 108)
is not among the produced ranges. -/
theorem chained_example_counterexample :
    (Gardener.mk [] [((2 : Int), (8 : Int))]
        [⟨"a", [⟨100, 0, 10⟩]⟩, ⟨"b", [⟨1000, 100, 5⟩]⟩]).convert_to_location_seed_ranges
          [((2 : Int), (8 : Int))]
      = [((1002 : Int), (1005 : Int)), (105, 108)]
    ∧ ((107 : Int), (108 : Int)) ∉
        (Gardener.mk [] [((2 : Int), (8 : Int))]
          [⟨"a", [⟨100, 0, 10⟩]⟩, ⟨"b", [⟨1000, 100, 5⟩]⟩]).convert_to_location_seed_ranges
            [((2 : Int), (8 : Int))] := by
  decide

/-- Claim C3 amended: applying two Categories in sequence equals applying the
composed piecewise map on the point multisets, and the example range (2, 8)
through the two categories yields exactly (1002, 1005) and (105, 108) (the
uncovered second-stage part stays at (105, 108), not (107, 108)). -/
theorem chained_categories_compose :
    (∀ (cA cB : Category) (l : List (Int × Int)),
      listPoints ((Gardener.mk [] [] [cA, cB]).convert_to_location_seed_ranges l)
        = (listPoints l).map (fun n => cB.convert_initial_seed (cA.convert_initial_seed n)))
    ∧ (Gardener.mk [] [((2 : Int), (8 : Int))]
        [⟨"a", [⟨100, 0, 10⟩]⟩, ⟨"b", [⟨1000, 100, 5⟩]⟩]).convert_to_location_seed_ranges
          [((2 : Int), (8 : Int))]
      = [((1002 : Int), (1005 : Int)), (105, 108)] := by
  constructor
  · intro cA cB l
    have hfold : (Gardener.mk [] [] [cA, cB]).convert_to_location_seed_ranges l
        = cB.convert_seed_range (cA.convert_seed_range l) := rfl
    rw [hfold, listPoints_convert, listPoints_convert, Multiset.map_map]
    rfl
  · decide

/-- Claim C4: when rule source domains overlap, the first rule in listed order
wins: convert_initial_seed applies the first containing rule's offset, and the
range loop consumes exactly the first overlapping rule for the popped range,
appending the translated overlap and re-queuing the residual sub-ranges. -/
theorem first_match_wins (cid : String) (pre suf : List MapRule) (m : MapRule)
    (n : Int) (r : Int × Int) (rest acc : List (Int × Int)) (fuel : Nat)
    (hnc : ∀ m' ∈ pre, ¬ (m'.source_start ≤ n ∧ n < m'.source_start + m'.length))
    (hc : m.source_start ≤ n ∧ n < m.source_start + m.length)
    (hno : ∀ m' ∈ pre, ¬ max r.1 m'.source_start < min r.2 (m'.source_start + m'.length))
    (hov : max r.1 m.source_start < min r.2 (m.source_start + m.length)) :
    (Category.mk cid (pre ++ m :: suf)).convert_initial_seed n
        = m.destination_start + (n - m.source_start)
    ∧ convertLoopF (pre ++ m :: suf) (fuel + 1) (r :: rest) acc
        = convertLoopF (pre ++ m :: suf) fuel (residuals m r ++ rest)
            (acc ++ [translated m r]) := by
  constructor
  · exact applyFirstRule_of_first hnc hc
  · exact convertLoopF_cons_some fuel rest acc (findFirstOverlap_of_first hno hov)

/-- Witness for C4: an earlier non-matching rule and a later matching one. -/
theorem first_match_wins_witness :
    (Category.mk "w" ([⟨0, 10, 5⟩] ++ ⟨100, 0, 10⟩ :: [])).convert_initial_seed 2
        = (100 : Int) + (2 - 0)
    ∧ convertLoopF ([⟨0, 10, 5⟩] ++ ⟨100, 0, 10⟩ :: []) (0 + 1)
          [((2 : Int), (8 : Int))] []
        = convertLoopF ([⟨0, 10, 5⟩] ++ ⟨100, 0, 10⟩ :: []) 0
            (residuals ⟨100, 0, 10⟩ (2, 8) ++ []) ([] ++ [translated ⟨100, 0, 10⟩ (2, 8)]) :=
  first_match_wins "w" [⟨0, 10, 5⟩] [] ⟨100, 0, 10⟩ 2 (2, 8) [] [] 0
    (by decide) (by decide) (by decide) (by decide)

/-- Claim C5: the work-list drain loop terminates within
ranges * (2 * rules + 1) iterations: that much fuel already makes the
fuel-indexed loop return, and its value is convert_seed_range's result. -/
theorem loop_terminates_linear_fuel (c : Category) (l : List (Int × Int)) (fuel : Nat)
    (h : l.length * (2 * c.category_map.length + 1) ≤ fuel) :
    ∃ out, convertLoopF c.category_map fuel l.reverse [] = some ([], out)
      ∧ c.convert_seed_range l = out := by
  have hmu : measureWL c.category_map l.reverse ≤ fuel := by
    have h1 := measureWL_le c.category_map l.reverse
    simp only [List.length_reverse] at h1
    omega
  obtain ⟨out, hrun, heq, -⟩ := convert_seed_range_run c l
  refine ⟨out, ?_, heq⟩
  rw [convertLoopF_irrel c.category_map fuel (measureWL c.category_map l.reverse)
    l.reverse [] hmu (le_refl _), hrun]

/-- Witness for C5 at one rule, one range and fuel 6. -/
theorem loop_terminates_linear_fuel_witness :
    ∃ out, convertLoopF [⟨0, 0, 1⟩] 6 ([((0 : Int), (2 : Int))]).reverse []
        = some ([], out)
      ∧ (Category.mk "w" [⟨0, 0, 1⟩]).convert_seed_range [((0 : Int), (2 : Int))] = out :=
  loop_terminates_linear_fuel ⟨"w", [⟨0, 0, 1⟩]⟩ [((0 : Int), (2 : Int))] 6 (by decide)

/-- Claim C6: the scalar conversion agrees with the range conversion on a
length-1 range: convert_initial_seed n = m exactly when convert_seed_range
maps the single range (n, n+1) to the single range (m, m+1). -/
theorem scalar_equiv_singleton_range (c : Category) (n mv : Int) :
    c.convert_initial_seed n = mv
      ↔ c.convert_seed_range [(n, n + 1)] = [(mv, mv + 1)] := by
  constructor
  · intro h
    rw [convert_seed_range_singleton, h]
  · intro h
    rw [convert_seed_range_singleton] at h
    simp only [List.cons.injEq, Prod.mk.injEq] at h
    exact h.1.1

/-- Claim C7: a non-empty range that meets no rule's source interval is passed
through to the output of convert_seed_range unchanged. -/
theorem identity_passthrough (c : Category) (s e : Int) (l : List (Int × Int))
    (hne : s < e)
    (hout : ∀ m ∈ c.category_map, ∀ p : Int, s ≤ p → p < e →
        ¬ (m.source_start ≤ p ∧ p < m.source_start + m.length))
    (hmem : (s, e) ∈ l) :
    (s, e) ∈ c.convert_seed_range l := by
  have hnone := findFirstOverlap_none_of_pointwise hout
  obtain ⟨out, hrun, heq, -⟩ := convert_seed_range_run c l
  rw [heq]
  exact convertLoopF_mem c.category_map (s, e) hnone _ l.reverse [] [] out
    (le_refl _) hrun (Or.inl (List.mem_reverse.2 hmem))

/-- Witness for C7: the range (0, 3) misses the single rule covering 10..14. -/
theorem identity_passthrough_witness :
    ((0 : Int), (3 : Int)) ∈
      (Category.mk "w" [⟨5, 10, 5⟩]).convert_seed_range [((0 : Int), (3 : Int))] :=
  identity_passthrough (Category.mk "w" [⟨5, 10, 5⟩]) 0 3 [((0 : Int), (3 : Int))]
    (by decide)
    (by
      intro m hm p h1 h2
      have hm2 : m = ⟨5, 10, 5⟩ := by
        simpa using hm
      subst hm2
      intro hcon
      simp only at hcon
      omega)
    (by decide)

/-- Claim C8: for a non-empty final range list the reported answer is the
minimum start value over all ranges (Python's lexicographic min of pairs has
the minimal first component); for (50,60), (10,20), (200,210) it is 10. -/
theorem min_extraction :
    (∀ g : Gardener, g.convert_to_location_seed_ranges g.seed_ranges ≠ [] →
      ∃ mn, mn ∈ g.convert_to_location_seed_ranges g.seed_ranges
        ∧ (∀ y ∈ g.convert_to_location_seed_ranges g.seed_ranges, mn.1 ≤ y.1)
        ∧ g.find_lowest_location_from_seed_ranges = some mn.1)
    ∧ (Gardener.mk [] [((50 : Int), (60 : Int)), (10, 20), (200, 210)]
        []).find_lowest_location_from_seed_ranges = some 10 := by
  constructor
  · intro g hne
    obtain ⟨mn, hpm, hm, hmin⟩ := pyMin_spec _ hne
    refine ⟨mn, hm, hmin, ?_⟩
    unfold Gardener.find_lowest_location_from_seed_ranges
    rw [hpm]
    rfl
  · decide

/-- Witness for C8 at the concrete three-range gardener with no categories. -/
theorem min_extraction_witness :
    ∃ mn, mn ∈ (Gardener.mk [] [((50 : Int), (60 : Int)), (10, 20), (200, 210)]
        []).convert_to_location_seed_ranges
          (Gardener.mk [] [((50 : Int), (60 : Int)), (10, 20), (200, 210)] []).seed_ranges
      ∧ (∀ y ∈ (Gardener.mk [] [((50 : Int), (60 : Int)), (10, 20), (200, 210)]
          []).convert_to_location_seed_ranges
            (Gardener.mk [] [((50 : Int), (60 : Int)), (10, 20), (200, 210)] []).seed_ranges,
          mn.1 ≤ y.1)
      ∧ (Gardener.mk [] [((50 : Int), (60 : Int)), (10, 20), (200, 210)]
          []).find_lowest_location_from_seed_ranges = some mn.1 :=
  min_extraction.1
    (Gardener.mk [] [((50 : Int), (60 : Int)), (10, 20), (200, 210)] []) (by decide)

/-- Claim C9 counterexample: with an empty rule list convert_seed_range
returns the input ranges in reverse order, not the input list unchanged. -/
theorem empty_rules_counterexample :
    (Category.mk "e" []).convert_seed_range [((0 : Int), (1 : Int)), (2, 3)]
      ≠ [((0 : Int), (1 : Int)), (2, 3)] := by
  decide

/-- Claim C9 amended: with an empty rule list convert_seed_range returns
exactly the reversal of the input list (the same ranges, in reverse order). -/
theorem empty_rules_reverse (cid : String) (l : List (Int × Int)) :
    (Category.mk cid []).convert_seed_range l = l.reverse :=
  convert_seed_range_empty_rules cid l

/-- Claim C10: the seeds line must hold an even number of integers: with an
odd count the seed_ranges construction hits a missing index (modelled as
none), with an even count entry k is
(initial_seeds[2k], initial_seeds[2k] + initial_seeds[2k+1]). -/
theorem parse_seed_ranges_parity (seeds : List Int) :
    (seeds.length % 2 = 1 → buildSeedRanges seeds = none)
    ∧ (seeds.length % 2 = 0 → ∃ l, buildSeedRanges seeds = some l
        ∧ l.length = seeds.length / 2
        ∧ ∀ (k : Nat) (a b : Int), seeds.get? (2 * k) = some a →
            seeds.get? (2 * k + 1) = some b → l.get? k = some (a, a + b)) :=
  ⟨fun h => buildSeedRanges_odd seeds.length seeds (le_refl _) h,
   fun h => buildSeedRanges_even seeds.length seeds (le_refl _) h⟩

/-- Witness for C10: an odd seeds line fails, an even one builds the ranges. -/
theorem parse_seed_ranges_parity_witness :
    buildSeedRanges [(1 : Int), 2, 3] = none
    ∧ ∃ l, buildSeedRanges [(5 : Int), 4, 20, 3] = some l
        ∧ l.length = ([(5 : Int), 4, 20, 3]).length / 2
        ∧ ∀ (k : Nat) (a b : Int), ([(5 : Int), 4, 20, 3]).get? (2 * k) = some a →
            ([(5 : Int), 4, 20, 3]).get? (2 * k + 1) = some b →
            l.get? k = some (a, a + b) :=
  ⟨(parse_seed_ranges_parity [(1 : Int), 2, 3]).1 (by decide),
   (parse_seed_ranges_parity [(5 : Int), 4, 20, 3]).2 (by decide)⟩

end Day5
